import Mathlib

/-!
Verification of the BB84 QKD simulator (files `app.py` and
`bb84_qkd_simulation.py`).

The source builds single-qubit Qiskit circuits out of `x` and `h` gates
(plus a no-op `barrier` in the standalone script), and samples a single
measurement shot from a simulator backend.  We embed the circuits as lists
of gates and give them their exact state-vector semantics: every reachable
amplitude has the form `a / sqrt 2 ^ k` with `a : ℤ`, so a state is a pair
of integer amplitudes together with the shared exponent `k`.  The backend's
single-shot Born-rule sampling is modelled by `sampleOutcome` over an
explicit stream of fair random bits (the same stream also models the
`random` module used for bit and basis choices): the outcome is
deterministic when the Born probability of reading 1 is 0 or 1, and
otherwise (for the circuits of this program this only happens at
probability 1/2) it is the next bit of the stream.

Python floats only ever hold `errors / len(key)` and the literal `0.15`
here; both are modelled exactly by `ℚ`.
-/

/-- The two encoding/measurement bases `'Z'` and `'X'` of the source. -/
inductive QBasis where
  | Z : QBasis
  | X : QBasis
deriving DecidableEq, Repr

/-- Single-qubit gates appearing in the source circuits: `qc.x(0)`,
`qc.h(0)` and the no-op `qc.barrier()`. -/
inductive Gate where
  | x : Gate
  | h : Gate
  | barrier : Gate
deriving DecidableEq, Repr

/-- Exact state of one qubit: amplitudes `a0 / sqrt 2 ^ shift` on `|0>` and
`a1 / sqrt 2 ^ shift` on `|1>`.  All states reachable by `x`/`h` circuits
from `|0>` have this form with integer `a0`, `a1`. -/
structure Qstate where
  a0 : ℤ
  a1 : ℤ
  shift : ℕ
deriving DecidableEq, Repr

/-- Powers of two in `ℤ`, by structural recursion (kernel-reducible). -/
def pow2 : ℕ → ℤ
  | 0 => 1
  | n + 1 => 2 * pow2 n

/-- Action of one gate on the exact state.  `x` swaps the amplitudes; `h`
maps `(a0, a1)` to `((a0 + a1)/sqrt 2, (a0 - a1)/sqrt 2)`, which in the
scaled representation increments the exponent; `barrier` does nothing. -/
def applyGate : Gate → Qstate → Qstate
  | Gate.x, s => ⟨s.a1, s.a0, s.shift⟩
  | Gate.h, s => ⟨s.a0 + s.a1, s.a0 - s.a1, s.shift + 1⟩
  | Gate.barrier, s => s

/-- Initial state `|0>` of `QuantumCircuit(1, 1)`. -/
def initState : Qstate := ⟨1, 0, 0⟩

/-- Run a circuit (list of gates) from `|0>`. -/
def runCircuit (qc : List Gate) : Qstate :=
  qc.foldl (fun s g => applyGate g s) initState

/-- The random source: an infinite stream of fair bits and a position.  It
models both the global `random` module (bit and basis draws) and the
simulator backend's measurement sampling. -/
structure Rng where
  bits : ℕ → Bool
  pos : ℕ

/-- Draw the next random bit as `0` or `1` (models `random.randint(0, 1)`
and the backend's fair coin). -/
def Rng.next (r : Rng) : ℕ × Rng :=
  (if r.bits r.pos then 1 else 0, ⟨r.bits, r.pos + 1⟩)

/-- Draw the next random basis (models `random.choice(['Z', 'X'])`). -/
def Rng.nextBasis (r : Rng) : QBasis × Rng :=
  (if r.bits r.pos then QBasis.X else QBasis.Z, ⟨r.bits, r.pos + 1⟩)

/-- Born-rule single-shot sampling of
`execute(qc, backend, shots=1, memory=True)` followed by `int(...)`.
The probability of reading 1 is `a1 ^ 2 / 2 ^ shift`.  When it is 0
(`a1 = 0`) the outcome is 0 and no randomness is consumed; when it is 1
(`a1 ^ 2 = 2 ^ shift`) the outcome is 1 and no randomness is consumed;
otherwise the outcome is random — for every circuit this program builds
the remaining probability is exactly 1/2, realised as the next fair bit
of the stream. -/
def sampleOutcome (s : Qstate) (r : Rng) : ℕ × Rng :=
  if s.a1 = 0 then (0, r)
  else if s.a1 * s.a1 = pow2 s.shift then (1, r)
  else r.next

/-- Shared shape of a measurement step in the source (`measure_qubits` and
`eve_intercept` in both files): copy the circuit, append `h` when measuring
in the `X` basis, measure and take the single shot. -/
def measureInBasis (qc : List Gate) (basis : QBasis) (r : Rng) : ℕ × Rng :=
  sampleOutcome (runCircuit (qc ++ (if basis = QBasis.X then [Gate.h] else []))) r

/-- Draw `n` random bits in order (models the comprehension
`[random.randint(0, 1) for _ in range(n)]`). -/
def drawBits : ℕ → Rng → List ℕ × Rng
  | 0, r => ([], r)
  | n + 1, r =>
    let p := r.next
    let rest := drawBits n p.2
    (p.1 :: rest.1, rest.2)

/-- Draw `n` random bases in order (models the comprehension
`[random.choice(['Z', 'X']) for _ in range(n)]`). -/
def drawBases : ℕ → Rng → List QBasis × Rng
  | 0, r => ([], r)
  | n + 1, r =>
    let p := r.nextBasis
    let rest := drawBases n p.2
    (p.1 :: rest.1, rest.2)

/-- `create_bits_bases(n)` of `app.py` (identical to `create_alice_bits(n)`
of `bb84_qkd_simulation.py`): `n` random bits, then `n` random bases. -/
def create_bits_bases (n : ℕ) (r : Rng) : (List ℕ × List QBasis) × Rng :=
  let bp := drawBits n r
  let bs := drawBases n bp.2
  ((bp.1, bs.1), bs.2)

/-- Circuit preparation of one qubit, the loop body of `encode_qubits`:
`qc.x(0)` when the bit is 1, then `qc.h(0)` when the basis is `'X'`. -/
def encodeOne (bit : ℕ) (base : QBasis) : List Gate :=
  (if bit = 1 then [Gate.x] else []) ++ (if base = QBasis.X then [Gate.h] else [])

/-- `encode_qubits(bits, bases)`, identical in both files.  `zip` truncates
at the shorter list exactly like Python's `zip`. -/
def encode_qubits (bits : List ℕ) (bases : List QBasis) : List (List Gate) :=
  (bits.zip bases).map fun p => encodeOne p.1 p.2

/-- `measure_qubits(circuits, bob_bases)`, identical in both files.  The
Python loop `for i, qc in enumerate(circuits)` indexes `bob_bases[i]`, so
when `circuits` outruns `bob_bases` the call raises `IndexError`
(modelled by `none`); a longer `bob_bases` is silently unused. -/
def measure_qubits : List (List Gate) → List QBasis → Rng → Option (List ℕ × Rng)
  | [], _, r => some ([], r)
  | _ :: _, [], _ => none
  | qc :: qcs, b :: bs, r =>
    let m := measureInBasis qc b r
    match measure_qubits qcs bs m.2 with
    | none => none
    | some p => some (m.1 :: p.1, p.2)

namespace App

/-- Loop body sequence of `eve_intercept` in `app.py`, over the qubit
circuits already paired with Eve's basis choices: measure each circuit in
Eve's basis, then rebuild a fresh circuit from the outcome
(`re_qc = QuantumCircuit(1, 1); if result == 1: x; if basis == 'X': h`). -/
def interceptPairs : List (List Gate × QBasis) → Rng → List (List Gate) × Rng
  | [], r => ([], r)
  | p :: rest, r =>
    let m := measureInBasis p.1 p.2 r
    let re_qc : List Gate :=
      (if m.1 = 1 then [Gate.x] else []) ++ (if p.2 = QBasis.X then [Gate.h] else [])
    let o := interceptPairs rest m.2
    (re_qc :: o.1, o.2)

/-- `eve_intercept(circuits)` of `app.py`: draw one random basis per
circuit, then measure-and-resend each circuit. -/
def eve_intercept (circuits : List (List Gate)) (r : Rng) : List (List Gate) × Rng :=
  let eb := drawBases circuits.length r
  interceptPairs (circuits.zip eb.1) eb.2

/-- `sift_keys(alice_bases, bob_bases, alice_bits, bob_bits)` of `app.py`.
The Python loop runs `i` over `range(len(alice_bits))` and indexes the
other three lists at `i`; a missing index raises `IndexError` (`none`).
`bob_bits[i]` is only read when the bases at `i` agree, which the last
equation reproduces by dropping one entry of `bob_bits` per step. -/
def sift_keys : List QBasis → List QBasis → List ℕ → List ℕ → Option (List ℕ × List ℕ)
  | _, _, [], _ => some ([], [])
  | [], _, _ :: _, _ => none
  | _ :: _, [], _ :: _, _ => none
  | aB :: aBs, bB :: bBs, a :: arest, bbits =>
    if aB = bB then
      match bbits with
      | [] => none
      | b :: brest =>
        match sift_keys aBs bBs arest brest with
        | none => none
        | some p => some (a :: p.1, b :: p.2)
    else sift_keys aBs bBs arest bbits.tail

end App

/-- `calculate_qber(key_a, key_b)`, identical in both files:
`sum(a != b for a, b in zip(key_a, key_b)) / len(key_a)` when `key_a` is
non-empty, else `0.0`.  The float result is modelled exactly in `ℚ`. -/
def calculate_qber (key_a key_b : List ℕ) : ℚ :=
  let errors := ((key_a.zip key_b).filter (fun p => p.1 != p.2)).length
  if key_a = [] then 0 else (errors : ℚ) / (key_a.length : ℚ)

/-- The detection branch `if qber > 0.15: ... else: ...` shared by the
`app.py` handler and the script's `main` (the float literal `0.15` is
exactly `15/100`). -/
inductive Classification where
  | SecureLikely : Classification
  | EavesdroppingSuspected : Classification
deriving DecidableEq, Repr

/-- Threshold classification of a QBER value, as in both sources:
suspected exactly when `qber > 0.15`. -/
def classifyDetection (qber : ℚ) : Classification :=
  if qber > 15 / 100 then Classification.EavesdroppingSuspected
  else Classification.SecureLikely

/-- Everything the `Run Simulation` handler of `app.py` computes from the
core (keys, QBER, detection verdict, and the per-trial data it derives
them from). -/
structure SimResult where
  alice_bits : List ℕ
  alice_bases : List QBasis
  bob_bases : List QBasis
  bob_results : List ℕ
  key_a : List ℕ
  key_b : List ℕ
  qber : ℚ
  verdict : Classification
deriving DecidableEq, Repr

/-- The `Run Simulation` handler of `app.py` (lines 105-129): Alice's bits
and bases, Bob's bases, encoding, the optional Eve pass, Bob's
measurements, sifting, QBER and the threshold verdict. -/
def runSimulation (n : ℕ) (eve_present : Bool) (r : Rng) : Option SimResult :=
  let cb := create_bits_bases n r
  let alice_bits := cb.1.1
  let alice_bases := cb.1.2
  let db := drawBases n cb.2
  let bob_bases := db.1
  let encoded := encode_qubits alice_bits alice_bases
  let ir := if eve_present then App.eve_intercept encoded db.2 else (encoded, db.2)
  match measure_qubits ir.1 bob_bases ir.2 with
  | none => none
  | some mr =>
    match App.sift_keys alice_bases bob_bases alice_bits mr.1 with
    | none => none
    | some sk =>
      let qber := calculate_qber sk.1 sk.2
      some ⟨alice_bits, alice_bases, bob_bases, mr.1, sk.1, sk.2, qber,
            classifyDetection qber⟩

namespace Sim

/-- Loop body sequence of `eve_intercept` in `bb84_qkd_simulation.py`: the
copied circuit additionally gets a `barrier()` (a no-op) before Eve's
measurement. -/
def interceptPairs : List (List Gate × QBasis) → Rng → List (List Gate) × Rng
  | [], r => ([], r)
  | p :: rest, r =>
    let m := measureInBasis (p.1 ++ [Gate.barrier]) p.2 r
    let eve_qc : List Gate :=
      (if m.1 = 1 then [Gate.x] else []) ++ (if p.2 = QBasis.X then [Gate.h] else [])
    let o := interceptPairs rest m.2
    (eve_qc :: o.1, o.2)

/-- `eve_intercept(circuits)` of `bb84_qkd_simulation.py`: like the app
version but with a barrier, and it also returns Eve's bases. -/
def eve_intercept (circuits : List (List Gate)) (r : Rng) :
    (List (List Gate) × List QBasis) × Rng :=
  let eb := drawBases circuits.length r
  let o := interceptPairs (circuits.zip eb.1) eb.2
  ((o.1, eb.1), o.2)

/-- Recursion of the script's `sift_keys` carrying the absolute trial
index `i` that Python's `for i in range(len(alice_bits))` appends to
`indices`. -/
def siftGo : ℕ → List QBasis → List QBasis → List ℕ → List ℕ →
    Option (List ℕ × List ℕ × List ℕ)
  | _, _, _, [], _ => some ([], [], [])
  | _, [], _, _ :: _, _ => none
  | _, _ :: _, [], _ :: _, _ => none
  | i, aB :: aBs, bB :: bBs, a :: arest, bbits =>
    if aB = bB then
      match bbits with
      | [] => none
      | b :: brest =>
        match siftGo (i + 1) aBs bBs arest brest with
        | none => none
        | some p => some (a :: p.1, b :: p.2.1, i :: p.2.2)
    else siftGo (i + 1) aBs bBs arest bbits.tail

/-- `sift_keys` of `bb84_qkd_simulation.py`: like the app version but it
also returns the list of sifted trial indices. -/
def sift_keys (aB bB : List QBasis) (aBits bBits : List ℕ) :
    Option (List ℕ × List ℕ × List ℕ) :=
  siftGo 0 aB bB aBits bBits

end Sim

/-- Specification-side sifting (section 4.6 of the design): the ordered
subsequence of (sender bit, receiver bit) pairs restricted to trials where
sender basis equals receiver basis. -/
def siftSpec (aB bB : List QBasis) (aBits bBits : List ℕ) : List (ℕ × ℕ) :=
  (((aB.zip bB).zip (aBits.zip bBits)).filter (fun p => decide (p.1.1 = p.1.2))).map
    (fun p => p.2)

/-- Specification-side error count: the number of positions at which the
two sifted keys disagree. -/
def disagreeCountSpec (a b : List ℕ) : ℕ :=
  ((List.range a.length).filter (fun i => decide (a.getD i 0 ≠ b.getD i 0))).length

/-- Fixed all-zeros random stream used by concrete witnesses. -/
def rng0 : Rng := ⟨fun _ => false, 0⟩

/-- Random stream whose only `true` bit is at position 2; in a 1-qubit run
it makes Alice pick basis `Z` and Bob basis `X`, so the sifted key is
empty. -/
def rngMismatch : Rng := ⟨fun i => decide (i = 2), 0⟩

/-- The result of `runSimulation 1 false rngMismatch`: one trial, bases
disagree, so both sifted keys are empty. -/
def resMismatch : SimResult :=
  ⟨[0], [QBasis.Z], [QBasis.X], [0], [], [], calculate_qber [] [],
   classifyDetection (calculate_qber [] [])⟩

theorem measure_encode_matched (b : ℕ) (hb : b = 0 ∨ b = 1) (B : QBasis) (r : Rng) :
    measureInBasis (encodeOne b B) B r = (b, r) := by
  rcases hb with rfl | rfl <;> cases B <;> rfl

theorem measure_encode_mismatched (b : ℕ) (hb : b = 0 ∨ b = 1) {aB bB : QBasis}
    (hne : aB ≠ bB) (r : Rng) :
    measureInBasis (encodeOne b aB) bB r = r.next := by
  rcases hb with rfl | rfl <;> cases aB <;> cases bB <;>
    first
    | rfl
    | exact absurd rfl hne

theorem measure_qubits_cons (qc : List Gate) (qcs : List (List Gate)) (B : QBasis)
    (Bs : List QBasis) (r : Rng) :
    measure_qubits (qc :: qcs) (B :: Bs) r =
      match measure_qubits qcs Bs (measureInBasis qc B r).2 with
      | none => none
      | some p => some ((measureInBasis qc B r).1 :: p.1, p.2) := rfl

/-- C1: a qubit prepared with bit `b` in basis `B` by `encode_qubits` and
measured by `measure_qubits` in the same basis `B`, with no eavesdropper
pass in between, yields exactly `b` — deterministically, for every state of
the random source, which is moreover left untouched.  Stated for a whole
equal-length batch of prepared qubits measured with the same basis list. -/
theorem matching_basis_determinism (bits : List ℕ) (bases : List QBasis) (r : Rng)
    (hlen : bits.length = bases.length) (hb : ∀ b ∈ bits, b = 0 ∨ b = 1) :
    measure_qubits (encode_qubits bits bases) bases r = some (bits, r) := by
  induction bits generalizing bases r with
  | nil =>
    cases bases with
    | nil => rfl
    | cons B Bs => simp at hlen
  | cons b bs ih =>
    cases bases with
    | nil => simp at hlen
    | cons B Bs =>
      have hbhead : b = 0 ∨ b = 1 := hb b (List.mem_cons_self b bs)
      have hbtail : ∀ x ∈ bs, x = 0 ∨ x = 1 := fun x hx => hb x (List.mem_cons_of_mem _ hx)
      have hlen' : bs.length = Bs.length := by simpa using hlen
      have henc : encode_qubits (b :: bs) (B :: Bs) = encodeOne b B :: encode_qubits bs Bs := rfl
      rw [henc, measure_qubits_cons, measure_encode_matched b hbhead B r]
      show (match measure_qubits (encode_qubits bs Bs) Bs r with
            | none => none
            | some p => some (b :: p.1, p.2)) = some (b :: bs, r)
      rw [ih Bs r hlen' hbtail]

theorem matching_basis_determinism_witness :
    (([0, 1] : List ℕ).length = ([QBasis.Z, QBasis.X] : List QBasis).length ∧
      ∀ b ∈ ([0, 1] : List ℕ), b = 0 ∨ b = 1) ∧
    measure_qubits (encode_qubits [0, 1] [QBasis.Z, QBasis.X]) [QBasis.Z, QBasis.X] rng0 =
      some ([0, 1], rng0) :=
  ⟨⟨by decide, by decide⟩,
   matching_basis_determinism [0, 1] [QBasis.Z, QBasis.X] rng0 (by decide) (by decide)⟩

/-- C6: measuring a qubit in the basis conjugate to its preparation basis
returns the random source's next bit — a fair coin, by the `RandomSource`
contract — and the outcome expression does not depend on the prepared bit
at all. -/
theorem conjugate_basis_randomness (b : ℕ) (aB bB : QBasis) (r : Rng)
    (hb : b = 0 ∨ b = 1) (hne : aB ≠ bB) :
    measure_qubits (encode_qubits [b] [aB]) [bB] r = some ([r.next.1], r.next.2) := by
  have henc : encode_qubits [b] [aB] = [encodeOne b aB] := rfl
  rw [henc, measure_qubits_cons, measure_encode_mismatched b hb hne r]
  rfl

theorem conjugate_basis_randomness_witness :
    ((1 : ℕ) = 0 ∨ (1 : ℕ) = 1) ∧ QBasis.Z ≠ QBasis.X ∧
    measure_qubits (encode_qubits [1] [QBasis.Z]) [QBasis.X] rng0 =
      some ([rng0.next.1], rng0.next.2) :=
  ⟨by decide, by decide, conjugate_basis_randomness 1 QBasis.Z QBasis.X rng0 (by decide) (by decide)⟩

theorem siftSpec_nil_bits (aB bB : List QBasis) (bBits : List ℕ) :
    siftSpec aB bB [] bBits = [] := by
  simp [siftSpec]

theorem siftSpec_nil_aB (bB : List QBasis) (aBits bBits : List ℕ) :
    siftSpec [] bB aBits bBits = [] := by
  simp [siftSpec]

theorem siftSpec_nil_bB (A : QBasis) (As : List QBasis) (aBits bBits : List ℕ) :
    siftSpec (A :: As) [] aBits bBits = [] := by
  simp [siftSpec]

theorem siftSpec_cons_matched (A B : QBasis) (hAB : A = B) (As Bs : List QBasis)
    (a b : ℕ) (as bs : List ℕ) :
    siftSpec (A :: As) (B :: Bs) (a :: as) (b :: bs) = (a, b) :: siftSpec As Bs as bs := by
  simp [siftSpec, hAB]

theorem siftSpec_cons_mismatched (A B : QBasis) (hAB : A ≠ B) (As Bs : List QBasis)
    (a b : ℕ) (as bs : List ℕ) :
    siftSpec (A :: As) (B :: Bs) (a :: as) (b :: bs) = siftSpec As Bs as bs := by
  simp [siftSpec, hAB]

theorem appSift_eq_spec : ∀ (aB bB : List QBasis) (aBits bBits : List ℕ),
    aB.length = aBits.length → bB.length = aBits.length → bBits.length = aBits.length →
    App.sift_keys aB bB aBits bBits =
      some ((siftSpec aB bB aBits bBits).map Prod.fst,
            (siftSpec aB bB aBits bBits).map Prod.snd) := by
  intro aB bB aBits
  induction aBits generalizing aB bB with
  | nil =>
    intro bBits h1 h2 h3
    simp only [List.length_nil, List.length_eq_zero] at h1 h2 h3
    subst h1; subst h2; subst h3
    rfl
  | cons a as ih =>
    intro bBits h1 h2 h3
    cases aB with
    | nil => simp at h1
    | cons A As =>
      cases bB with
      | nil => simp at h2
      | cons B Bs =>
        cases bBits with
        | nil => simp at h3
        | cons b bs =>
          have h1' : As.length = as.length := by simpa using h1
          have h2' : Bs.length = as.length := by simpa using h2
          have h3' : bs.length = as.length := by simpa using h3
          have hrec := ih As Bs bs h1' h2' h3'
          by_cases hAB : A = B
          · rw [siftSpec_cons_matched A B hAB As Bs a b as bs]
            simp [App.sift_keys, hAB, hrec]
          · rw [siftSpec_cons_mismatched A B hAB As Bs a b as bs]
            simp [App.sift_keys, hAB, hrec]

theorem simSift_eq_spec : ∀ (i : ℕ) (aB bB : List QBasis) (aBits bBits : List ℕ),
    aB.length = aBits.length → bB.length = aBits.length → bBits.length = aBits.length →
    ∃ idx, Sim.siftGo i aB bB aBits bBits =
      some ((siftSpec aB bB aBits bBits).map Prod.fst,
            (siftSpec aB bB aBits bBits).map Prod.snd, idx) := by
  intro i aB bB aBits
  induction aBits generalizing i aB bB with
  | nil =>
    intro bBits h1 h2 h3
    simp only [List.length_nil, List.length_eq_zero] at h1 h2 h3
    subst h1; subst h2; subst h3
    exact ⟨[], rfl⟩
  | cons a as ih =>
    intro bBits h1 h2 h3
    cases aB with
    | nil => simp at h1
    | cons A As =>
      cases bB with
      | nil => simp at h2
      | cons B Bs =>
        cases bBits with
        | nil => simp at h3
        | cons b bs =>
          have h1' : As.length = as.length := by simpa using h1
          have h2' : Bs.length = as.length := by simpa using h2
          have h3' : bs.length = as.length := by simpa using h3
          by_cases hAB : A = B
          · obtain ⟨idx, hidx⟩ := ih (i + 1) As Bs bs h1' h2' h3'
            refine ⟨i :: idx, ?_⟩
            rw [siftSpec_cons_matched A B hAB As Bs a b as bs]
            simp [Sim.siftGo, hAB, hidx]
          · obtain ⟨idx, hidx⟩ := ih (i + 1) As Bs bs h1' h2' h3'
            refine ⟨idx, ?_⟩
            rw [siftSpec_cons_mismatched A B hAB As Bs a b as bs]
            simp [Sim.siftGo, hAB, hidx]

theorem appSift_some_lengths : ∀ (aB bB : List QBasis) (aBits bBits : List ℕ)
    (p : List ℕ × List ℕ), App.sift_keys aB bB aBits bBits = some p →
    p.1.length = p.2.length := by
  intro aB bB aBits
  induction aBits generalizing aB bB with
  | nil =>
    intro bBits p h
    simp only [App.sift_keys, Option.some.injEq] at h
    rw [← h]
  | cons a as ih =>
    intro bBits p h
    cases aB with
    | nil => simp [App.sift_keys] at h
    | cons A As =>
      cases bB with
      | nil => simp [App.sift_keys] at h
      | cons B Bs =>
        by_cases hAB : A = B
        · cases bBits with
          | nil => simp [App.sift_keys, hAB] at h
          | cons b bs =>
            simp only [App.sift_keys, if_pos hAB] at h
            cases hrec : App.sift_keys As Bs as bs with
            | none => rw [hrec] at h; simp at h
            | some q =>
              rw [hrec] at h
              simp only [Option.some.injEq] at h
              have := ih As Bs bs q hrec
              rw [← h]
              simpa using this
        · simp only [App.sift_keys, if_neg hAB] at h
          exact ih As Bs (List.tail bBits) p h

theorem simSift_some_lengths : ∀ (i : ℕ) (aB bB : List QBasis) (aBits bBits : List ℕ)
    (t : List ℕ × List ℕ × List ℕ), Sim.siftGo i aB bB aBits bBits = some t →
    t.1.length = t.2.1.length ∧ t.2.2.length = t.1.length := by
  intro i aB bB aBits
  induction aBits generalizing i aB bB with
  | nil =>
    intro bBits t h
    simp only [Sim.siftGo, Option.some.injEq] at h
    rw [← h]
    exact ⟨rfl, rfl⟩
  | cons a as ih =>
    intro bBits t h
    cases aB with
    | nil => simp [Sim.siftGo] at h
    | cons A As =>
      cases bB with
      | nil => simp [Sim.siftGo] at h
      | cons B Bs =>
        by_cases hAB : A = B
        · cases bBits with
          | nil => simp [Sim.siftGo, hAB] at h
          | cons b bs =>
            simp only [Sim.siftGo, if_pos hAB] at h
            cases hrec : Sim.siftGo (i + 1) As Bs as bs with
            | none => rw [hrec] at h; simp at h
            | some q =>
              rw [hrec] at h
              simp only [Option.some.injEq] at h
              have := ih (i + 1) As Bs bs q hrec
              rw [← h]
              simpa using this
        · simp only [Sim.siftGo, if_neg hAB] at h
          exact ih (i + 1) As Bs (List.tail bBits) t h

theorem siftSpec_length_le (aB bB : List QBasis) (aBits bBits : List ℕ) :
    (siftSpec aB bB aBits bBits).length ≤ aBits.length := by
  simp only [siftSpec, List.length_map]
  calc ((((aB.zip bB).zip (aBits.zip bBits)).filter
          (fun p => decide (p.1.1 = p.1.2)))).length
      ≤ ((aB.zip bB).zip (aBits.zip bBits)).length := List.length_filter_le _ _
    _ ≤ (aBits.zip bBits).length := by
        rw [List.length_zip]; exact min_le_right _ _
    _ ≤ aBits.length := by
        rw [List.length_zip]; exact min_le_left _ _

theorem siftSpec_fst_indep : ∀ (aB bB : List QBasis) (aBits bBits bBits2 : List ℕ),
    bBits.length = aBits.length → bBits2.length = aBits.length →
    (siftSpec aB bB aBits bBits2).map Prod.fst =
      (siftSpec aB bB aBits bBits).map Prod.fst := by
  intro aB bB aBits
  induction aBits generalizing aB bB with
  | nil =>
    intro bBits bBits2 h1 h2
    rw [siftSpec_nil_bits, siftSpec_nil_bits]
  | cons a as ih =>
    intro bBits bBits2 h1 h2
    cases bBits with
    | nil => simp at h1
    | cons b bs =>
      cases bBits2 with
      | nil => simp at h2
      | cons c cs =>
        have h1' : bs.length = as.length := by simpa using h1
        have h2' : cs.length = as.length := by simpa using h2
        cases aB with
        | nil => rw [siftSpec_nil_aB, siftSpec_nil_aB]
        | cons A As =>
          cases bB with
          | nil => rw [siftSpec_nil_bB, siftSpec_nil_bB]
          | cons B Bs =>
            have hrec := ih As Bs bs cs h1' h2'
            by_cases hAB : A = B
            · rw [siftSpec_cons_matched A B hAB As Bs a c as cs,
                  siftSpec_cons_matched A B hAB As Bs a b as bs]
              simpa using hrec
            · rw [siftSpec_cons_mismatched A B hAB As Bs a c as cs,
                  siftSpec_cons_mismatched A B hAB As Bs a b as bs]
              exact hrec

/-- C2: for equal-length trial records, both implementations of `sift_keys`
return exactly the ordered projection of the trials whose sender and
receiver bases agree (so a trial contributes a pair if and only if the two
bases match, in original trial order); the sifted length is at most `n`;
and the bits measured after any eavesdropper interference (any other
receiver-bit list) never change the sender side of the sifted selection. -/
theorem sifting_correctness (aB bB : List QBasis) (aBits bBits : List ℕ)
    (h1 : aB.length = aBits.length) (h2 : bB.length = aBits.length)
    (h3 : bBits.length = aBits.length) :
    App.sift_keys aB bB aBits bBits =
      some ((siftSpec aB bB aBits bBits).map Prod.fst,
            (siftSpec aB bB aBits bBits).map Prod.snd) ∧
    (∃ idx, Sim.sift_keys aB bB aBits bBits =
      some ((siftSpec aB bB aBits bBits).map Prod.fst,
            (siftSpec aB bB aBits bBits).map Prod.snd, idx)) ∧
    (siftSpec aB bB aBits bBits).length ≤ aBits.length ∧
    ∀ bBits2 : List ℕ, bBits2.length = aBits.length →
      (siftSpec aB bB aBits bBits2).map Prod.fst =
        (siftSpec aB bB aBits bBits).map Prod.fst :=
  ⟨appSift_eq_spec aB bB aBits bBits h1 h2 h3,
   simSift_eq_spec 0 aB bB aBits bBits h1 h2 h3,
   siftSpec_length_le aB bB aBits bBits,
   fun bBits2 hlen2 => siftSpec_fst_indep aB bB aBits bBits bBits2 h3 hlen2⟩

theorem sifting_correctness_witness :
    ([QBasis.Z, QBasis.X, QBasis.Z] : List QBasis).length = ([1, 0, 1] : List ℕ).length ∧
    App.sift_keys [QBasis.Z, QBasis.X, QBasis.Z] [QBasis.Z, QBasis.Z, QBasis.Z]
      [1, 0, 1] [1, 1, 0] = some ([1, 1], [1, 0]) := by
  constructor
  · decide
  · rw [(sifting_correctness [QBasis.Z, QBasis.X, QBasis.Z] [QBasis.Z, QBasis.Z, QBasis.Z]
        [1, 0, 1] [1, 1, 0] (by decide) (by decide) (by decide)).1]
    decide

/-- C10: whenever either implementation's `sift_keys` returns, its two
sifted key sequences have equal length (and the script's indices list has
that same length), so the subsequent `calculate_qber` pairs every sender
bit with exactly one receiver bit and its denominator `len(key_a)` equals
the number of compared pairs `len(zip(key_a, key_b))`. -/
theorem sifted_lengths_align (aB bB : List QBasis) (aBits bBits : List ℕ) :
    (∀ p : List ℕ × List ℕ, App.sift_keys aB bB aBits bBits = some p →
      p.1.length = p.2.length ∧
      (p.1 ≠ [] → calculate_qber p.1 p.2 =
        (((p.1.zip p.2).filter (fun q => q.1 != q.2)).length : ℚ) /
          ((p.1.zip p.2).length : ℚ))) ∧
    (∀ t : List ℕ × List ℕ × List ℕ, Sim.sift_keys aB bB aBits bBits = some t →
      t.1.length = t.2.1.length ∧ t.2.2.length = t.1.length) := by
  constructor
  · intro p hp
    have hlen := appSift_some_lengths aB bB aBits bBits p hp
    refine ⟨hlen, fun hne => ?_⟩
    have hz : (p.1.zip p.2).length = p.1.length := by
      rw [List.length_zip, ← hlen, min_self]
    rw [hz]
    simp [calculate_qber, hne]
  · intro t ht
    exact simSift_some_lengths 0 aB bB aBits bBits t ht

theorem sifted_lengths_align_witness :
    App.sift_keys [QBasis.Z, QBasis.X] [QBasis.Z, QBasis.Z] [1, 0] [1, 1] =
      some ([1], [1]) ∧ ([1] : List ℕ).length = ([1] : List ℕ).length :=
  ⟨by decide,
   ((sifted_lengths_align [QBasis.Z, QBasis.X] [QBasis.Z, QBasis.Z] [1, 0] [1, 1]).1
     ([1], [1]) (by decide)).1⟩

theorem disagreeCountSpec_cons (x y : ℕ) (as bs : List ℕ) :
    disagreeCountSpec (x :: as) (y :: bs) =
      (if x ≠ y then 1 else 0) + disagreeCountSpec as bs := by
  simp only [disagreeCountSpec, List.length_cons, List.range_succ_eq_map,
    List.filter_cons, List.getD_cons_zero, List.filter_map, List.length_map]
  by_cases hxy : x = y
  · simp [hxy, Function.comp_def]
  · simp [hxy, Function.comp_def, Nat.add_comm]

theorem zip_filter_ne_eq_spec : ∀ (a b : List ℕ), a.length = b.length →
    ((a.zip b).filter (fun p => p.1 != p.2)).length = disagreeCountSpec a b := by
  intro a
  induction a with
  | nil =>
    intro b h
    simp only [List.length_nil] at h
    rw [List.length_eq_zero.mp h.symm]
    rfl
  | cons x xs ih =>
    intro b h
    cases b with
    | nil => simp at h
    | cons y ys =>
      have h' : xs.length = ys.length := by simpa using h
      rw [disagreeCountSpec_cons]
      simp only [List.zip_cons_cons, List.filter_cons]
      by_cases hxy : x = y
      · simp [hxy, ih ys h']
      · simp [hxy, ih ys h', Nat.add_comm]

/-- C3: `calculate_qber` returns the number of disagreeing positions
divided by the sifted key length when the key is non-empty, returns
exactly `0` on an empty sifted key (no division-by-zero failure is
possible — the function is total), and its value always lies in `[0, 1]`. -/
theorem qber_postcondition (key_a key_b : List ℕ) (h : key_a.length = key_b.length) :
    (key_a = [] → calculate_qber key_a key_b = 0) ∧
    (key_a ≠ [] → calculate_qber key_a key_b =
      (disagreeCountSpec key_a key_b : ℚ) / (key_a.length : ℚ)) ∧
    0 ≤ calculate_qber key_a key_b ∧ calculate_qber key_a key_b ≤ 1 := by
  by_cases hnil : key_a = []
  · subst hnil
    exact ⟨fun _ => rfl, fun hne => absurd rfl hne, le_refl 0, by norm_num [calculate_qber]⟩
  · have hq : calculate_qber key_a key_b =
        (((key_a.zip key_b).filter (fun p => p.1 != p.2)).length : ℚ) /
          (key_a.length : ℚ) := by
      simp [calculate_qber, hnil]
    have hbound : ((key_a.zip key_b).filter (fun p => p.1 != p.2)).length ≤
        key_a.length := by
      refine le_trans (List.length_filter_le _ _) ?_
      rw [List.length_zip, ← h, min_self]
    refine ⟨fun he => absurd he hnil,
            fun _ => by rw [hq, zip_filter_ne_eq_spec key_a key_b h], ?_, ?_⟩
    · rw [hq]
      exact div_nonneg (Nat.cast_nonneg _) (Nat.cast_nonneg _)
    · rw [hq]
      exact div_le_one_of_le₀ (Nat.cast_le.mpr hbound) (Nat.cast_nonneg _)

theorem qber_postcondition_witness :
    ([0, 1] : List ℕ).length = ([0, 0] : List ℕ).length ∧
    (0 ≤ calculate_qber [0, 1] [0, 0] ∧ calculate_qber [0, 1] [0, 0] ≤ 1) :=
  ⟨rfl, (qber_postcondition [0, 1] [0, 0] rfl).2.2⟩

/-- C5: the detection branch flags eavesdropping exactly when the QBER is
strictly greater than the 0.15 threshold, so a QBER of exactly 0.15 is
classified as likely secure (the boundary is exclusive), 0.10 as likely
secure and 0.20 as suspected. -/
theorem threshold_boundary_exclusive :
    (∀ q : ℚ, classifyDetection q = Classification.EavesdroppingSuspected ↔ q > 15 / 100) ∧
    classifyDetection (15 / 100) = Classification.SecureLikely ∧
    classifyDetection (10 / 100) = Classification.SecureLikely ∧
    classifyDetection (20 / 100) = Classification.EavesdroppingSuspected := by
  refine ⟨fun q => ?_, ?_, ?_, ?_⟩
  · by_cases hq : q > 15 / 100 <;> simp [classifyDetection, hq]
  · norm_num [classifyDetection]
  · norm_num [classifyDetection]
  · norm_num [classifyDetection]

theorem drawBits_length (n : ℕ) : ∀ r : Rng, (drawBits n r).1.length = n := by
  induction n with
  | zero => intro r; rfl
  | succ n ih => intro r; simp [drawBits, ih]

theorem drawBases_length (n : ℕ) : ∀ r : Rng, (drawBases n r).1.length = n := by
  induction n with
  | zero => intro r; rfl
  | succ n ih => intro r; simp [drawBases, ih]

theorem drawBits_mem (n : ℕ) : ∀ (r : Rng) (b : ℕ), b ∈ (drawBits n r).1 → b = 0 ∨ b = 1 := by
  induction n with
  | zero => intro r b hb; simp [drawBits] at hb
  | succ n ih =>
    intro r b hb
    simp only [drawBits, List.mem_cons] at hb
    rcases hb with h | h
    · cases hbit : r.bits r.pos <;> simp [Rng.next, hbit] at h <;> simp [h]
    · exact ih _ b h

theorem no_eve_sift_eq : ∀ (bits : List ℕ) (aBases bBases : List QBasis) (r : Rng)
    (p : List ℕ × Rng) (q : List ℕ × List ℕ),
    (∀ b ∈ bits, b = 0 ∨ b = 1) →
    measure_qubits (encode_qubits bits aBases) bBases r = some p →
    App.sift_keys aBases bBases bits p.1 = some q →
    q.1 = q.2 := by
  intro bits
  induction bits with
  | nil =>
    intro aBases bBases r p q hb hm hs
    have henc : encode_qubits [] aBases = [] := rfl
    rw [henc] at hm
    have hp : ([], r) = p := by
      cases bBases <;> simpa [measure_qubits] using hm
    rw [← hp] at hs
    have hq : ([], []) = q := by
      cases aBases <;> cases bBases <;> simpa [App.sift_keys] using hs
    rw [← hq]
  | cons b bs ih =>
    intro aBases bBases r p q hb hm hs
    have hbhead : b = 0 ∨ b = 1 := hb b (List.mem_cons_self b bs)
    have hbtail : ∀ x ∈ bs, x = 0 ∨ x = 1 := fun x hx => hb x (List.mem_cons_of_mem _ hx)
    cases aBases with
    | nil =>
      have henc : encode_qubits (b :: bs) [] = [] := rfl
      rw [henc] at hm
      have hp : ([], r) = p := by
        cases bBases <;> simpa [measure_qubits] using hm
      rw [← hp] at hs
      simp [App.sift_keys] at hs
    | cons A As =>
      cases bBases with
      | nil =>
        have henc : encode_qubits (b :: bs) (A :: As) =
            encodeOne b A :: encode_qubits bs As := rfl
        rw [henc] at hm
        simp [measure_qubits] at hm
      | cons B Bs =>
        have henc : encode_qubits (b :: bs) (A :: As) =
            encodeOne b A :: encode_qubits bs As := rfl
        rw [henc, measure_qubits_cons] at hm
        cases hrec : measure_qubits (encode_qubits bs As) Bs
            (measureInBasis (encodeOne b A) B r).2 with
        | none => rw [hrec] at hm; simp at hm
        | some pr =>
          rw [hrec] at hm
          simp only [Option.some.injEq] at hm
          by_cases hAB : A = B
          · subst hAB
            rw [measure_encode_matched b hbhead A r] at hm hrec
            rw [← hm] at hs
            simp only [App.sift_keys, if_pos rfl] at hs
            cases hsrec : App.sift_keys As Bs bs pr.1 with
            | none => rw [hsrec] at hs; simp at hs
            | some qr =>
              rw [hsrec] at hs
              simp only [if_true, Option.some.injEq] at hs
              have heq := ih As Bs (b, r).2 pr qr hbtail hrec hsrec
              rw [← hs]
              simpa using heq
          · rw [measure_encode_mismatched b hbhead hAB r] at hm hrec
            rw [← hm] at hs
            simp only [App.sift_keys, if_neg hAB] at hs
            rw [List.tail_cons] at hs
            exact ih As Bs r.next.2 pr q hbtail hrec hs

theorem zip_self_filter_ne (sa : List ℕ) :
    (sa.zip sa).filter (fun p => p.1 != p.2) = [] := by
  induction sa with
  | nil => rfl
  | cons a as ih => simp [List.zip_cons_cons, List.filter_cons, ih]

theorem qber_eq_keys (sa : List ℕ) : calculate_qber sa sa = 0 := by
  by_cases h : sa = []
  · subst h; rfl
  · simp [calculate_qber, h, zip_self_filter_ne]

/-- C4: in every completed run with the eavesdropper disabled, the two
sifted keys agree position by position (they are the same list), and the
computed QBER is exactly `0` — not merely close to zero — because
matching-basis measurement with no interception is deterministic. -/
theorem no_eavesdropper_zero_qber (n : ℕ) (r : Rng) (res : SimResult)
    (h : runSimulation n false r = some res) :
    res.key_a = res.key_b ∧ res.qber = 0 := by
  simp only [runSimulation, Bool.false_eq_true, if_false] at h
  split at h
  · exact absurd h (by simp)
  · rename_i mr hm
    split at h
    · exact absurd h (by simp)
    · rename_i sk hs
      simp only [Option.some.injEq] at h
      have hkeys : sk.1 = sk.2 :=
        no_eve_sift_eq (drawBits n r).1 (drawBases n (drawBits n r).2).1
          (drawBases n (create_bits_bases n r).2).1 (drawBases n (create_bits_bases n r).2).2
          mr sk (drawBits_mem n r) hm hs
      rw [← h]
      refine ⟨hkeys, ?_⟩
      show calculate_qber sk.1 sk.2 = 0
      rw [hkeys]
      exact qber_eq_keys sk.2

theorem no_eavesdropper_zero_qber_witness :
    runSimulation 1 false rngMismatch = some resMismatch ∧
    resMismatch.key_a = resMismatch.key_b ∧ resMismatch.qber = 0 :=
  ⟨rfl, (no_eavesdropper_zero_qber 1 rngMismatch resMismatch rfl).1,
   (no_eavesdropper_zero_qber 1 rngMismatch resMismatch rfl).2⟩

theorem appInterceptPairs_length : ∀ (l : List (List Gate × QBasis)) (r : Rng),
    (App.interceptPairs l r).1.length = l.length := by
  intro l
  induction l with
  | nil => intro r; rfl
  | cons p rest ih => intro r; simp [App.interceptPairs, ih]

theorem simInterceptPairs_length : ∀ (l : List (List Gate × QBasis)) (r : Rng),
    (Sim.interceptPairs l r).1.length = l.length := by
  intro l
  induction l with
  | nil => intro r; rfl
  | cons p rest ih => intro r; simp [Sim.interceptPairs, ih]

theorem measureInBasis_barrier (qc : List Gate) (b : QBasis) (r : Rng) :
    measureInBasis (qc ++ [Gate.barrier]) b r = measureInBasis qc b r := by
  simp [measureInBasis, runCircuit, List.foldl_append, List.foldl_cons,
    List.foldl_nil, applyGate]

/-- C7: the intercept-resend attack of both `eve_intercept` versions draws
one fresh random basis for each intercepted qubit, measures the qubit in
that basis through the shared measurement model, and forwards a freshly
prepared circuit encoding the measured bit in that same eavesdropper basis
(the re-encoding is exactly the `encode_qubits` preparation); the
operation is a total function — given any circuits and any random source
it always returns, one forwarded circuit per intercepted one. -/
theorem intercept_resend_total :
    (∀ (qc : List Gate) (r : Rng),
      App.eve_intercept [qc] r =
        ([encodeOne (measureInBasis qc r.nextBasis.1 r.nextBasis.2).1 r.nextBasis.1],
         (measureInBasis qc r.nextBasis.1 r.nextBasis.2).2)) ∧
    (∀ (qc : List Gate) (r : Rng),
      Sim.eve_intercept [qc] r =
        (([encodeOne (measureInBasis qc r.nextBasis.1 r.nextBasis.2).1 r.nextBasis.1],
          [r.nextBasis.1]),
         (measureInBasis qc r.nextBasis.1 r.nextBasis.2).2)) ∧
    (∀ (circuits : List (List Gate)) (r : Rng),
      (App.eve_intercept circuits r).1.length = circuits.length) ∧
    (∀ (circuits : List (List Gate)) (r : Rng),
      (Sim.eve_intercept circuits r).1.1.length = circuits.length) := by
  refine ⟨fun qc r => rfl, fun qc r => ?_, fun circuits r => ?_, fun circuits r => ?_⟩
  · show Sim.eve_intercept [qc] r = _
    have hb := measureInBasis_barrier qc r.nextBasis.1 r.nextBasis.2
    simp [Sim.eve_intercept, drawBases, Sim.interceptPairs, hb, encodeOne]
  · simp [App.eve_intercept, appInterceptPairs_length, List.length_zip, drawBases_length]
  · simp [Sim.eve_intercept, simInterceptPairs_length, List.length_zip, drawBases_length]

theorem classify_zero_secure : classifyDetection 0 = Classification.SecureLikely := by
  norm_num [classifyDetection]

/-- C8 counterexample: a run with `n = 0` (the only representative of
`n <= 0` over `ℕ`, and Python's `range` treats every `n <= 0` identically)
is not rejected: it completes normally with zero trials, empty keys, QBER
`0` and a `SecureLikely` verdict — there is no `InvalidParameter` failure
anywhere in the code. -/
theorem run_zero_not_rejected :
    runSimulation 0 false rng0 =
      some ⟨[], [], [], [], [], [], 0, Classification.SecureLikely⟩ := by
  have h : runSimulation 0 false rng0 =
      some ⟨[], [], [], [], [], [], 0, classifyDetection 0⟩ := rfl
  rw [h, classify_zero_secure]

/-- C8 amended: the code never validates `n`.  A run with `n = 0` (with or
without the eavesdropper, for every random source) succeeds and produces
the empty result — no trials, empty keys, QBER exactly `0`,
`SecureLikely` — rather than failing with an `InvalidParameter`
condition. -/
theorem run_nonpositive_n_empty (eve : Bool) (r : Rng) :
    runSimulation 0 eve r =
      some ⟨[], [], [], [], [], [], 0, Classification.SecureLikely⟩ := by
  cases eve with
  | false =>
    have h : runSimulation 0 false r =
        some ⟨[], [], [], [], [], [], 0, classifyDetection 0⟩ := rfl
    rw [h, classify_zero_secure]
  | true =>
    have h : runSimulation 0 true r =
        some ⟨[], [], [], [], [], [], 0, classifyDetection 0⟩ := rfl
    rw [h, classify_zero_secure]

/-- C9: the run is a pure function of its inputs — two runs with the same
`n`, the same eavesdropper flag and identically seeded random sources
(equal bit streams, equal positions) produce bit-identical results. -/
theorem fixed_seed_determinism (n : ℕ) (eve : Bool) (s1 s2 : ℕ → Bool) (p1 p2 : ℕ)
    (hs : ∀ i, s1 i = s2 i) (hp : p1 = p2) :
    runSimulation n eve ⟨s1, p1⟩ = runSimulation n eve ⟨s2, p2⟩ := by
  have h : (⟨s1, p1⟩ : Rng) = ⟨s2, p2⟩ := by
    rw [funext hs, hp]
  rw [h]

theorem fixed_seed_determinism_witness :
    (∀ i : ℕ, rng0.bits i = rng0.bits i) ∧
    runSimulation 2 true ⟨rng0.bits, 0⟩ = runSimulation 2 true ⟨rng0.bits, 0⟩ :=
  ⟨fun _ => rfl,
   fixed_seed_determinism 2 true rng0.bits rng0.bits 0 0 (fun _ => rfl) rfl⟩
